import Mathlib

/-!
Verification development for the Kerio Connect localization translator
(`kerio_trans.py`).  The core of the program is a text pipeline that
rewrites Cyrillic string values inside a JS/JSON-like localization file:

* `CYRILLIC_RE` / `looks_like_english` / `needs_translation`: script detection;
* `PLACEHOLDER_RE` / `mask_fragments` / `unmask_fragments`: protection of
  placeholders (`%1`, `{name}`, tags, entities, `[one|many]` groups) behind
  `__MASK<i>__` tokens;
* the inline quote codec in `translate_value_literal` (strip quotes,
  `\"` to `"`, and back);
* `KV_VALUE_RE` together with `_replace_value` inside `process_file`:
  the whole-file scan that rewrites only `key: "value"` literals.

Strings are modelled as `List Char` (Python `str` is a sequence of unicode
code points).  Python regex character classes `\d` and `\s` are modelled by
their ASCII parts (the class membership functions are isolated below so the
modelling choice is explicit).  Functions that scan a string are defined
structurally by fuel (the fuel is the string length, which is a strict
upper bound on the number of scanning steps), so that every definition is
computable and kernel-reducible; fuel-irrelevance lemmas recover the
natural recursion equations.

Exceptions are modelled with `Except`: the external translation capability
may fail (`Except Unit`), and `translate_value_literal` distinguishes the
`assert` failure of its quote check from a propagated backend failure.
-/

namespace KerioTrans

/-! ### Definitions: the model of kerio_trans.py -/

/-- A character matched by `CYRILLIC_RE = [Ѐ-ӿ]`. -/
def isCyr (c : Char) : Bool := 1024 ≤ c.toNat && c.toNat ≤ 1279

/-- `looks_like_english`: true when `CYRILLIC_RE.search` finds nothing. -/
def looks_like_english (s : List Char) : Bool := !(s.any isCyr)

/-- `needs_translation`: translate only strings containing Cyrillic. -/
def needs_translation (s : List Char) : Bool := !(looks_like_english s)

/-- The decimal digit character for `n` (used for `n < 10`). -/
def digitChar (n : Nat) : Char :=
  match n with
  | 0 => '0' | 1 => '1' | 2 => '2' | 3 => '3' | 4 => '4'
  | 5 => '5' | 6 => '6' | 7 => '7' | 8 => '8' | _ => '9'

/-- Fuel-driven most-significant-first decimal rendering. -/
def natDigitsF : Nat → Nat → List Char
  | 0, _ => []
  | fuel + 1, n => if n < 10 then [digitChar n] else natDigitsF fuel (n / 10) ++ [digitChar (n % 10)]

/-- Decimal rendering of `n`, as produced by Python `str(n)` for a natural. -/
def natDigits (n : Nat) : List Char := natDigitsF (n + 1) n

/-- A decimal digit character (`'0'` to `'9'`). -/
def isDigitCh (c : Char) : Bool := 48 ≤ c.toNat && c.toNat ≤ 57

/-- The mask token `__MASK<i>__` built by the Python f-string in `_repl`. -/
def maskTok (i : Nat) : List Char :=
  '_' :: '_' :: 'M' :: 'A' :: 'S' :: 'K' :: (natDigits i ++ ['_', '_'])

/-- Fuel-driven left-to-right non-overlapping replacement, as performed by
Python `str.replace(p, r)` for a nonempty pattern `p`: at each position, if
`p` is a prefix, emit `r` and resume after the matched occurrence (the
emitted replacement is not rescanned), else keep one character. -/
def replaceAllF : Nat → List Char → List Char → List Char → List Char
  | 0, s, _, _ => s
  | _ + 1, [], _, _ => []
  | fuel + 1, c :: rest, p, r =>
    if p.isPrefixOf (c :: rest) then r ++ replaceAllF fuel ((c :: rest).drop p.length) p r
    else c :: replaceAllF fuel rest p r

/-- `s.replace(p, r)` for nonempty `p`. -/
def replaceAll (s p r : List Char) : List Char := replaceAllF s.length s p r

/-- A character of the class `[a-zA-Z#0-9]` (HTML entity bodies). -/
def isEntCh (c : Char) : Bool :=
  isDigitCh c || (65 ≤ c.toNat && c.toNat ≤ 90) || (97 ≤ c.toNat && c.toNat ≤ 122) || c = '#'

/-- Alternative 1, `%\d+` (`\d` modelled as ASCII digits). -/
def matchPct : List Char → Option (List Char × List Char)
  | [] => none
  | c :: rest =>
    if c = '%' then
      let ds := rest.takeWhile isDigitCh
      if ds.isEmpty then none else some ('%' :: ds, rest.dropWhile isDigitCh)
    else none

/-- Alternative 2, `\{[^\}]*\}`: up to the first closing brace. -/
def matchBrace : List Char → Option (List Char × List Char)
  | [] => none
  | c :: rest =>
    if c = '{' then
      match rest.dropWhile (fun d => !(d = '}')) with
      | '}' :: r => some ('{' :: rest.takeWhile (fun d => !(d = '}')) ++ ['}'], r)
      | _ => none
    else none

/-- Alternative 3, `<[^>]*?>`: up to the first closing angle bracket. -/
def matchAngle : List Char → Option (List Char × List Char)
  | [] => none
  | c :: rest =>
    if c = '<' then
      match rest.dropWhile (fun d => !(d = '>')) with
      | '>' :: r => some ('<' :: rest.takeWhile (fun d => !(d = '>')) ++ ['>'], r)
      | _ => none
    else none

/-- Alternative 4, `&[a-zA-Z#0-9]+;`. -/
def matchEnt : List Char → Option (List Char × List Char)
  | [] => none
  | c :: rest =>
    if c = '&' then
      let ds := rest.takeWhile isEntCh
      if ds.isEmpty then none
      else match rest.dropWhile isEntCh with
        | ';' :: r => some ('&' :: ds ++ [';'], r)
        | _ => none
    else none

/-- Alternative 5, `\[\s*[^|\]]+\s*\|\s*[^]]+\]`.  The `\s*` pieces are
absorbed by the adjacent character classes (whitespace is neither `|`, `]`
nor `;`), so the alternative matches `[`, a nonempty run without `|` or
`]`, a `|`, a nonempty run without `]`, and `]`. -/
def matchBracket : List Char → Option (List Char × List Char)
  | [] => none
  | c :: rest =>
    if c = '[' then
      let aPart := rest.takeWhile (fun d => !(d = '|') && !(d = ']'))
      if aPart.isEmpty then none
      else match rest.dropWhile (fun d => !(d = '|') && !(d = ']')) with
        | '|' :: r2 =>
          let bPart := r2.takeWhile (fun d => !(d = ']'))
          if bPart.isEmpty then none
          else match r2.dropWhile (fun d => !(d = ']')) with
            | ']' :: r3 => some ('[' :: aPart ++ '|' :: bPart ++ [']'], r3)
            | _ => none
        | _ => none
    else none

/-- A leftmost match of `PLACEHOLDER_RE` at the head of `s`, returning the
matched fragment and the remaining text. -/
def matchPlaceholder (s : List Char) : Option (List Char × List Char) :=
  match s with
  | [] => none
  | c :: _ =>
    if c = '%' then matchPct s
    else if c = '{' then matchBrace s
    else if c = '<' then matchAngle s
    else if c = '&' then matchEnt s
    else if c = '[' then matchBracket s
    else none

/-- Fuel-driven model of `PLACEHOLDER_RE.sub(_repl, s)`: scan left to
right; at a match, emit the token `__MASK<n>__`, record the fragment, and
resume after the match; otherwise keep one character.  `n` is the number
of fragments recorded so far. -/
def maskAuxF : Nat → List Char → Nat → List Char × List (List Char)
  | 0, s, _ => (s, [])
  | _ + 1, [], _ => ([], [])
  | fuel + 1, c :: rest, n =>
    match matchPlaceholder (c :: rest) with
    | some (f, r) =>
      let p := maskAuxF fuel r (n + 1)
      (maskTok n ++ p.1, f :: p.2)
    | none =>
      let p := maskAuxF fuel rest n
      (c :: p.1, p.2)

/-- The masking scan started with `n` fragments already recorded. -/
def maskAux (s : List Char) (n : Nat) : List Char × List (List Char) := maskAuxF s.length s n

/-- `mask_fragments`: mask placeholders, returning the masked text and the
recorded fragments in discovery order. -/
def mask_fragments (s : List Char) : List Char × List (List Char) := maskAux s 0

/-- The loop of `unmask_fragments`, started at token index `k`: replace
`__MASK<k>__` by the first remaining fragment, then continue with `k + 1`. -/
def unmaskFrom : Nat → List Char → List (List Char) → List Char
  | _, s, [] => s
  | k, s, f :: fs => unmaskFrom (k + 1) (replaceAll s (maskTok k) f) fs

/-- `unmask_fragments`: substitute each recorded fragment back for its
token, in index order. -/
def unmask_fragments (s : List Char) (masks : List (List Char)) : List Char :=
  unmaskFrom 0 s masks

/-- `literal.startswith` applied to the quote character. -/
def startsWithQuote : List Char → Bool
  | '"' :: _ => true
  | _ => false

/-- `literal.endswith` applied to the quote character. -/
def endsWithQuote (l : List Char) : Bool := l.getLast? == some '"'

/-- Python `literal[1:-1]`. -/
def innerOf (l : List Char) : List Char := (l.drop 1).dropLast

/-- The two-character escape sequence backslash-quote. -/
def escQuote : List Char := ['\\', '"']

namespace LiteralCodec

/-- Decoding a quoted literal: check the surrounding quotes (the `assert`
of `translate_value_literal`), strip them, and un-escape exactly the
escaped quotes (`inner.replace('\\"', '"')`). -/
def decode (lit : List Char) : Option (List Char) :=
  if startsWithQuote lit && endsWithQuote lit then
    some (replaceAll (innerOf lit) escQuote ['"'])
  else none

/-- Encoding a logical value: re-escape the quotes
(`translated.replace('"', '\\"')`) and re-add the surrounding quotes. -/
def encode (v : List Char) : List Char := '"' :: (replaceAll v ['"'] escQuote ++ ['"'])

end LiteralCodec

/-- The two exception sources inside the per-literal pipeline: the
`assert` on the surrounding quotes, and an exception raised by the
external translation call. -/
inductive PyError
  | assertionError
  | backendError

deriving DecidableEq

deriving instance DecidableEq for Except

/-- `translate_value_literal(literal, translate_func)`: assert the quotes,
strip and un-escape (`inner.replace('\\"', '"')`), short-circuit when no
Cyrillic is present, otherwise mask, translate, unmask, re-escape and
re-quote.  Exceptions (from the assert or from `translate_func`) propagate
to the caller. -/
def translate_value_literal (lit : List Char)
    (translate : List Char → Except Unit (List Char)) : Except PyError (List Char) :=
  if startsWithQuote lit && endsWithQuote lit then
    if needs_translation (replaceAll (innerOf lit) escQuote ['"']) then
      match translate (mask_fragments (replaceAll (innerOf lit) escQuote ['"'])).1 with
      | Except.error _ => Except.error PyError.backendError
      | Except.ok t =>
        Except.ok (LiteralCodec.encode
          (unmask_fragments t (mask_fragments (replaceAll (innerOf lit) escQuote ['"'])).2))
    else Except.ok lit
  else Except.error PyError.assertionError

/-- `_replace_value`: apply `translate_value_literal` to the matched
literal and keep the captured prefix; on any exception substitute the
original literal back. -/
def replace_value (pre lit : List Char)
    (translate : List Char → Except Unit (List Char)) : List Char :=
  pre ++ (match translate_value_literal lit translate with
          | Except.ok out => out
          | Except.error _ => lit)

/-- A character of the class `\s` (modelled by its ASCII part). -/
def wsChar (c : Char) : Bool :=
  c = ' ' || c = '\t' || c = '\n' || c = '\r' || c = '\x0b' || c = '\x0c'

/-- The body scan of the string-literal regex `"(?:\\.|[^"\\])*"`, after
the opening quote: a closing quote ends the literal; a backslash consumes
the next character unless it is a newline (the regex `.` does not match a
newline); any other character (including a newline) is consumed as itself.
Each step is forced by the first character, so the regex is deterministic
and the returned body, when present, is the unique match. -/
def scanLit : List Char → Option (List Char × List Char)
  | [] => none
  | [c] => if c = '"' then some (['"'], []) else none
  | c :: d :: r =>
    if c = '"' then some (['"'], d :: r)
    else if c = '\\' then
      if d = '\n' then none
      else match scanLit r with
        | none => none
        | some (b, rest) => some ('\\' :: d :: b, rest)
    else match scanLit (d :: r) with
      | none => none
      | some (b, rest) => some (c :: b, rest)

/-- A match of the string-literal regex starting at the head of `s`. -/
def matchQuoted : List Char → Option (List Char × List Char)
  | '"' :: r =>
    match scanLit r with
    | some (b, rest) => some ('"' :: b, rest)
    | none => none
  | _ => none

/-- A match of `KV_VALUE_RE = (:\s*)("(?:\\.|[^"\\])*")` at the head of
`s`, returning group 1 (the prefix), group 2 (the literal) and the rest.
The greedy `\s*` is deterministic here because a quote is not whitespace. -/
def matchKV : List Char → Option (List Char × List Char × List Char)
  | ':' :: r =>
    match matchQuoted (r.dropWhile wsChar) with
    | some (lit, rest) => some (':' :: r.takeWhile wsChar, lit, rest)
    | none => none
  | _ => none

/-- Fuel-driven model of `KV_VALUE_RE.sub(_replace_value, text)`: try a
match at every position, left to right; at a match, emit
the output of `_replace_value` and resume after the match. -/
def processTextF : Nat → List Char → (List Char → Except Unit (List Char)) → List Char
  | 0, s, _ => s
  | _ + 1, [], _ => []
  | fuel + 1, c :: rest, translate =>
    match matchKV (c :: rest) with
    | some (pre, lit, after) => replace_value pre lit translate ++ processTextF fuel after translate
    | none => c :: processTextF fuel rest translate

/-- The pure text transformation performed by `process_file` between
reading and writing: `new_text = KV_VALUE_RE.sub(_replace_value, text)`. -/
def process_text (s : List Char) (translate : List Char → Except Unit (List Char)) : List Char :=
  processTextF s.length s translate

/-- A substring (contiguous) test: does `p` occur inside `s`? -/
def containsSub : List Char → List Char → Bool
  | p, [] => p.isPrefixOf []
  | p, s@(_ :: t) => p.isPrefixOf s || containsSub p t

/-- The four-letter sequence that every mask token contains. -/
def MASKseq : List Char := ['M', 'A', 'S', 'K']

/-- `maskFree s`: the input contains the sequence `MASK` nowhere. -/
def maskFree (s : List Char) : Prop := containsSub MASKseq s = false

instance (s : List Char) : Decidable (maskFree s) :=
  inferInstanceAs (Decidable (containsSub MASKseq s = false))

/-- Interleaving of unmatched segments with matched material: with
segments `u0, u1, ..., un` and fillers `f0, ..., f(n-1)`, produce
`u0 ++ f0 ++ u1 ++ f1 ++ ... ++ un`. -/
def interleaveF : List (List Char) → List (List Char) → List Char
  | [], _ => []
  | u :: _, [] => u
  | u :: us, f :: fs => u ++ f ++ interleaveF us fs

/-! ### Lemmas and claim theorems -/

/-! ### Script detection: CYRILLIC_RE, looks_like_english, needs_translation -/

/-! ### Decimal rendering of mask indices (Python `str(i)` inside the f-string) -/

theorem natDigitsF_invar : ∀ f1 f2 n : Nat, n < f1 → n < f2 → natDigitsF f1 n = natDigitsF f2 n := by
  intro f1
  induction f1 with
  | zero => intro f2 n h; omega
  | succ f1 ih =>
    intro f2 n h1 h2
    cases f2 with
    | zero => omega
    | succ f2 =>
      simp only [natDigitsF]
      by_cases h10 : n < 10
      · simp [h10]
      · simp only [if_neg h10]
        have hdiv : n / 10 < n := Nat.div_lt_self (by omega) (by omega)
        rw [ih f2 (n / 10) (by omega) (by omega)]

theorem natDigits_small {n : Nat} (h : n < 10) : natDigits n = [digitChar n] := by
  simp [natDigits, natDigitsF, h]

theorem natDigitsF_succ (f n : Nat) : natDigitsF (f + 1) n =
    if n < 10 then [digitChar n] else natDigitsF f (n / 10) ++ [digitChar (n % 10)] := rfl

theorem natDigits_step {n : Nat} (h : 10 ≤ n) :
    natDigits n = natDigits (n / 10) ++ [digitChar (n % 10)] := by
  have hdiv : n / 10 < n := Nat.div_lt_self (by omega) (by omega)
  show natDigitsF (n + 1) n = _
  rw [natDigitsF_succ, if_neg (by omega : ¬ n < 10),
    natDigitsF_invar n (n / 10 + 1) (n / 10) (by omega) (by omega)]
  rfl

theorem digitChar_isDigit {n : Nat} (h : n < 10) : isDigitCh (digitChar n) = true := by
  interval_cases n <;> decide

theorem digitChar_inj {a b : Nat} (ha : a < 10) (hb : b < 10) (h : digitChar a = digitChar b) :
    a = b := by
  interval_cases a <;> interval_cases b <;> revert h <;> decide

theorem natDigits_ne_nil (n : Nat) : natDigits n ≠ [] := by
  by_cases h : n < 10
  · rw [natDigits_small h]; simp
  · rw [natDigits_step (by omega)]; simp

theorem natDigits_digits (n : Nat) : ∀ c ∈ natDigits n, isDigitCh c = true := by
  induction n using Nat.strong_induction_on with
  | _ n ih =>
    by_cases h : n < 10
    · rw [natDigits_small h]
      intro c hc
      simp at hc
      subst hc
      exact digitChar_isDigit h
    · rw [natDigits_step (by omega)]
      intro c hc
      rcases List.mem_append.1 hc with h1 | h2
      · exact ih (n / 10) (Nat.div_lt_self (by omega) (by omega)) c h1
      · simp at h2
        subst h2
        exact digitChar_isDigit (Nat.mod_lt _ (by omega))

theorem natDigits_inj : ∀ a b : Nat, natDigits a = natDigits b → a = b := by
  intro a
  induction a using Nat.strong_induction_on with
  | _ a ih =>
    intro b h
    by_cases ha : a < 10 <;> by_cases hb : b < 10
    · rw [natDigits_small ha, natDigits_small hb] at h
      simp at h
      exact digitChar_inj ha hb h
    · have hb' := natDigits_step (n := b) (by omega)
      rw [natDigits_small ha, hb'] at h
      have hlen : (1 : Nat) = (natDigits (b / 10)).length + 1 := by
        have := congrArg List.length h
        simpa using this
      exact absurd (List.length_eq_zero.mp (by omega)) (natDigits_ne_nil (b / 10))
    · have ha' := natDigits_step (n := a) (by omega)
      rw [ha', natDigits_small hb] at h
      have hlen : (natDigits (a / 10)).length + 1 = 1 := by
        have := congrArg List.length h
        simpa using this
      exact absurd (List.length_eq_zero.mp (by omega)) (natDigits_ne_nil (a / 10))
    · have ha' := natDigits_step (n := a) (by omega)
      have hb' := natDigits_step (n := b) (by omega)
      rw [ha', hb'] at h
      have hsplit := List.append_inj' h (by simp)
      have h1 : a / 10 = b / 10 :=
        ih (a / 10) (Nat.div_lt_self (by omega) (by omega)) (b / 10) hsplit.1
      have h2 : a % 10 = b % 10 := by
        have := hsplit.2
        simp at this
        exact digitChar_inj (Nat.mod_lt _ (by omega)) (Nat.mod_lt _ (by omega)) this
      omega

/-! ### Python `str.replace`, for a nonempty pattern -/

theorem isPrefixOf_eq_true_iff : ∀ p s : List Char, p.isPrefixOf s = true ↔ ∃ t, s = p ++ t := by
  intro p
  induction p with
  | nil => intro s; simp [List.isPrefixOf]
  | cons a as ih =>
    intro s
    cases s with
    | nil => simp [List.isPrefixOf]
    | cons b bs =>
      simp only [List.isPrefixOf, Bool.and_eq_true, beq_iff_eq, ih bs]
      constructor
      · rintro ⟨rfl, t, rfl⟩; exact ⟨t, rfl⟩
      · rintro ⟨t, h⟩
        injection h with h1 h2
        exact ⟨h1.symm, t, h2⟩

theorem replaceAllF_nil (fuel : Nat) (p r : List Char) : replaceAllF fuel [] p r = [] := by
  cases fuel <;> rfl

theorem replaceAllF_invar : ∀ f1 f2 s p r, p ≠ [] → s.length ≤ f1 → s.length ≤ f2 →
    replaceAllF f1 s p r = replaceAllF f2 s p r := by
  intro f1
  induction f1 with
  | zero =>
    intro f2 s p r hp h1 h2
    have : s = [] := List.eq_nil_of_length_eq_zero (by omega)
    subst this
    rw [replaceAllF_nil, replaceAllF_nil]
  | succ f1 ih =>
    intro f2 s p r hp h1 h2
    cases s with
    | nil => rw [replaceAllF_nil, replaceAllF_nil]
    | cons c rest =>
      cases f2 with
      | zero => simp at h2
      | succ f2 =>
        have hplen : 0 < p.length := by
          cases p with
          | nil => exact absurd rfl hp
          | cons _ _ => simp
        simp only [replaceAllF]
        by_cases hpre : p.isPrefixOf (c :: rest) = true
        · simp only [hpre, if_true]
          have hdlen : ((c :: rest).drop p.length).length = rest.length + 1 - p.length := by simp
          have hlc : (c :: rest).length = rest.length + 1 := by simp
          rw [ih f2 _ p r hp (by omega) (by omega)]
        · simp only [hpre, if_false, Bool.false_eq_true]
          have hlc : (c :: rest).length = rest.length + 1 := by simp
          rw [ih f2 rest p r hp (by omega) (by omega)]

theorem replaceAll_nil (p r : List Char) : replaceAll [] p r = [] := rfl

theorem replaceAll_cons_neg {p : List Char} (c : Char) (rest r : List Char)
    (h : ¬ p.isPrefixOf (c :: rest) = true) :
    replaceAll (c :: rest) p r = c :: replaceAll rest p r := by
  show replaceAllF (rest.length + 1) (c :: rest) p r = _
  simp only [replaceAllF, h, if_false, Bool.false_eq_true]
  rfl

theorem replaceAllF_cons (f : Nat) (c : Char) (rest p r : List Char) :
    replaceAllF (f + 1) (c :: rest) p r =
    if p.isPrefixOf (c :: rest) then r ++ replaceAllF f ((c :: rest).drop p.length) p r
    else c :: replaceAllF f rest p r := rfl

theorem replaceAll_at_head {p : List Char} (hp : p ≠ []) (t r : List Char) :
    replaceAll (p ++ t) p r = r ++ replaceAll t p r := by
  cases p with
  | nil => exact absurd rfl hp
  | cons a as =>
    have hpre : (a :: as).isPrefixOf (a :: (as ++ t)) = true :=
      (isPrefixOf_eq_true_iff _ _).2 ⟨t, rfl⟩
    show replaceAllF ((as ++ t).length + 1) (a :: (as ++ t)) (a :: as) r = _
    rw [replaceAllF_cons, if_pos hpre]
    have hdrop : (a :: (as ++ t)).drop (a :: as).length = t := by
      show (a :: (as ++ t)).drop (as.length + 1) = t
      rw [List.drop_succ_cons]
      exact List.drop_left as t
    rw [hdrop, replaceAllF_invar (as ++ t).length t.length t (a :: as) r (by simp)
      (by simp) (Nat.le_refl _)]
    rfl

/-! ### PLACEHOLDER_RE: the five protected-fragment pattern classes

The five alternatives of `PLACEHOLDER_RE` begin with five distinct
characters (`%`, `{`, `<`, `&`, `[`), so the regex alternation order is
irrelevant: at any position at most one alternative can match, and each
alternative is deterministic (each repetition operator ranges over a
character class excluding the character that must follow, so backtracking
never changes the outcome). -/

theorem matchPct_sound {s f rest : List Char} (h : matchPct s = some (f, rest)) :
    s = f ++ rest ∧ f ≠ [] := by
  cases s with
  | nil => simp [matchPct] at h
  | cons c cs =>
    simp only [matchPct] at h
    split_ifs at h
    simp only [Option.some.injEq, Prod.mk.injEq] at h
    obtain ⟨hf, hr⟩ := h
    subst hf
    subst hr
    refine ⟨?_, by simp⟩
    have : c = '%' := by assumption
    subst this
    rw [List.cons_append, List.takeWhile_append_dropWhile]

theorem matchBrace_sound {s f rest : List Char} (h : matchBrace s = some (f, rest)) :
    s = f ++ rest ∧ f ≠ [] := by
  cases s with
  | nil => simp [matchBrace] at h
  | cons c cs =>
    simp only [matchBrace] at h
    split_ifs at h with hc
    subst hc
    cases hd : cs.dropWhile (fun d => !(d = '}')) with
    | nil => rw [hd] at h; simp at h
    | cons d r =>
      rw [hd] at h
      by_cases hdc : d = '}'
      · subst hdc
        simp only [Option.some.injEq, Prod.mk.injEq] at h
        obtain ⟨hf, hr⟩ := h
        subst hf
        subst hr
        refine ⟨?_, by simp⟩
        have := List.takeWhile_append_dropWhile (p := fun d => !(d = '}')) (l := cs)
        rw [hd] at this
        conv_lhs => rw [← this]
        simp
      · exfalso
        cases d <;> simp_all

theorem matchAngle_sound {s f rest : List Char} (h : matchAngle s = some (f, rest)) :
    s = f ++ rest ∧ f ≠ [] := by
  cases s with
  | nil => simp [matchAngle] at h
  | cons c cs =>
    simp only [matchAngle] at h
    split_ifs at h with hc
    subst hc
    cases hd : cs.dropWhile (fun d => !(d = '>')) with
    | nil => rw [hd] at h; simp at h
    | cons d r =>
      rw [hd] at h
      by_cases hdc : d = '>'
      · subst hdc
        simp only [Option.some.injEq, Prod.mk.injEq] at h
        obtain ⟨hf, hr⟩ := h
        subst hf
        subst hr
        refine ⟨?_, by simp⟩
        have := List.takeWhile_append_dropWhile (p := fun d => !(d = '>')) (l := cs)
        rw [hd] at this
        conv_lhs => rw [← this]
        simp
      · exfalso
        cases d <;> simp_all

theorem matchEnt_sound {s f rest : List Char} (h : matchEnt s = some (f, rest)) :
    s = f ++ rest ∧ f ≠ [] := by
  cases s with
  | nil => simp [matchEnt] at h
  | cons c cs =>
    simp only [matchEnt] at h
    split_ifs at h with hc hds
    subst hc
    cases hd : cs.dropWhile isEntCh with
    | nil => rw [hd] at h; simp at h
    | cons d r =>
      rw [hd] at h
      by_cases hdc : d = ';'
      · subst hdc
        simp only [Option.some.injEq, Prod.mk.injEq] at h
        obtain ⟨hf, hr⟩ := h
        subst hf
        subst hr
        refine ⟨?_, by simp⟩
        have := List.takeWhile_append_dropWhile (p := isEntCh) (l := cs)
        rw [hd] at this
        conv_lhs => rw [← this]
        simp
      · exfalso
        cases d <;> simp_all

theorem matchBracket_sound {s f rest : List Char} (h : matchBracket s = some (f, rest)) :
    s = f ++ rest ∧ f ≠ [] := by
  cases s with
  | nil => simp [matchBracket] at h
  | cons c cs =>
    simp only [matchBracket] at h
    split_ifs at h with hc ha
    subst hc
    cases hd : cs.dropWhile (fun d => !(d = '|') && !(d = ']')) with
    | nil => rw [hd] at h; simp at h
    | cons d r2 =>
      rw [hd] at h
      by_cases hdc : d = '|'
      · subst hdc
        simp only at h
        split_ifs at h with hb
        cases hd2 : r2.dropWhile (fun d => !(d = ']')) with
        | nil => rw [hd2] at h; simp at h
        | cons e r3 =>
          rw [hd2] at h
          by_cases hec : e = ']'
          · subst hec
            simp only [Option.some.injEq, Prod.mk.injEq] at h
            obtain ⟨hf, hr⟩ := h
            subst hf
            subst hr
            refine ⟨?_, by simp⟩
            have h1 := List.takeWhile_append_dropWhile
              (p := fun d => !(d = '|') && !(d = ']')) (l := cs)
            rw [hd] at h1
            have h2 := List.takeWhile_append_dropWhile (p := fun d => !(d = ']')) (l := r2)
            rw [hd2] at h2
            conv_lhs => rw [← h1]
            conv_lhs => rw [← h2]
            simp
          · exfalso
            cases e <;> simp_all
      · exfalso
        cases d <;> simp_all

theorem matchPlaceholder_sound {s f rest : List Char} (h : matchPlaceholder s = some (f, rest)) :
    s = f ++ rest ∧ f ≠ [] := by
  cases s with
  | nil => simp [matchPlaceholder] at h
  | cons c cs =>
    simp only [matchPlaceholder] at h
    split_ifs at h
    · exact matchPct_sound h
    · exact matchBrace_sound h
    · exact matchAngle_sound h
    · exact matchEnt_sound h
    · exact matchBracket_sound h

theorem matchPlaceholder_len {s f rest : List Char} (h : matchPlaceholder s = some (f, rest)) :
    rest.length < s.length := by
  obtain ⟨hs, hf⟩ := matchPlaceholder_sound h
  have : s.length = f.length + rest.length := by rw [hs]; simp
  have : 0 < f.length := by
    cases f with
    | nil => exact absurd rfl hf
    | cons _ _ => simp
  omega

/-! ### mask_fragments and unmask_fragments -/

theorem maskAuxF_cons (fuel : Nat) (c : Char) (rest : List Char) (n : Nat) :
    maskAuxF (fuel + 1) (c :: rest) n =
    match matchPlaceholder (c :: rest) with
    | some (f, r) =>
      let p := maskAuxF fuel r (n + 1)
      (maskTok n ++ p.1, f :: p.2)
    | none =>
      let p := maskAuxF fuel rest n
      (c :: p.1, p.2) := rfl

theorem maskAuxF_nil (fuel n : Nat) : maskAuxF fuel [] n = ([], []) := by
  cases fuel <;> rfl

theorem maskAuxF_invar : ∀ f1 f2 s n, s.length ≤ f1 → s.length ≤ f2 →
    maskAuxF f1 s n = maskAuxF f2 s n := by
  intro f1
  induction f1 with
  | zero =>
    intro f2 s n h1 h2
    have : s = [] := List.eq_nil_of_length_eq_zero (by omega)
    subst this
    rw [maskAuxF_nil, maskAuxF_nil]
  | succ f1 ih =>
    intro f2 s n h1 h2
    cases s with
    | nil => rw [maskAuxF_nil, maskAuxF_nil]
    | cons c rest =>
      cases f2 with
      | zero => simp at h2
      | succ f2 =>
        rw [maskAuxF_cons, maskAuxF_cons]
        have hl : (c :: rest).length = rest.length + 1 := by simp
        cases hm : matchPlaceholder (c :: rest) with
        | some p =>
          obtain ⟨f, r⟩ := p
          have hr : r.length < (c :: rest).length := matchPlaceholder_len hm
          simp only
          rw [ih f2 r (n + 1) (by omega) (by omega)]
        | none =>
          simp only
          rw [ih f2 rest n (by omega) (by omega)]

theorem maskAux_nil (n : Nat) : maskAux [] n = ([], []) := rfl

theorem maskAux_pos {c : Char} {rest f r : List Char} {n : Nat}
    (h : matchPlaceholder (c :: rest) = some (f, r)) :
    maskAux (c :: rest) n =
    (maskTok n ++ (maskAux r (n + 1)).1, f :: (maskAux r (n + 1)).2) := by
  show maskAuxF (rest.length + 1) (c :: rest) n = _
  rw [maskAuxF_cons, h]
  have hr : r.length < (c :: rest).length := matchPlaceholder_len h
  have hl : (c :: rest).length = rest.length + 1 := by simp
  simp only
  rw [maskAuxF_invar rest.length r.length r (n + 1) (by omega) (Nat.le_refl _)]
  rfl

theorem maskAux_neg {c : Char} {rest : List Char} {n : Nat}
    (h : matchPlaceholder (c :: rest) = none) :
    maskAux (c :: rest) n = (c :: (maskAux rest n).1, (maskAux rest n).2) := by
  show maskAuxF (rest.length + 1) (c :: rest) n = _
  rw [maskAuxF_cons, h]
  rfl

/-! ### The inline literal codec of translate_value_literal -/

/-! ### translate_value_literal and the per-match wrapper _replace_value -/

/-- The quote-stripping and un-escaping steps at the head of
`translate_value_literal` are exactly `LiteralCodec.decode`: when the
assert passes, the decoded value used by the pipeline is the one `decode`
produces, and the assert fails exactly when `decode` signals its format
error. -/
theorem decode_eq_pipeline_head (lit : List Char) :
    LiteralCodec.decode lit =
    (if startsWithQuote lit && endsWithQuote lit then
      some (replaceAll (innerOf lit) escQuote ['"'])
    else none) := rfl

/-! ### KV_VALUE_RE and the whole-file substitution -/

theorem getLast?_cons_ne {α : Type} (c : α) (l : List α) (h : l ≠ []) :
    (c :: l).getLast? = l.getLast? := by
  cases l with
  | nil => exact absurd rfl h
  | cons y ys => exact List.getLast?_cons_cons

theorem scanLit_sound_aux : ∀ n : Nat, ∀ x : List Char, x.length ≤ n →
    ∀ b rest : List Char, scanLit x = some (b, rest) →
    x = b ++ rest ∧ b ≠ [] ∧ b.getLast? = some '"' := by
  intro n
  induction n with
  | zero =>
    intro x hx b rest h
    have : x = [] := List.eq_nil_of_length_eq_zero (by omega)
    subst this
    simp [scanLit] at h
  | succ n ih =>
    intro x hx b rest h
    match x with
    | [] => simp [scanLit] at h
    | [c] =>
      simp only [scanLit] at h
      split_ifs at h with hc
      subst hc
      simp only [Option.some.injEq, Prod.mk.injEq] at h
      obtain ⟨hb, hr⟩ := h
      subst hb
      subst hr
      exact ⟨rfl, by simp, rfl⟩
    | c :: d :: r =>
      simp only [scanLit] at h
      by_cases hc : c = '"'
      · rw [if_pos hc] at h
        simp only [Option.some.injEq, Prod.mk.injEq] at h
        obtain ⟨hb, hr⟩ := h
        subst hb
        subst hr
        subst hc
        exact ⟨rfl, by simp, rfl⟩
      · rw [if_neg hc] at h
        by_cases hbs : c = '\\'
        · rw [if_pos hbs] at h
          split_ifs at h
          cases hs : scanLit r with
          | none => rw [hs] at h; simp at h
          | some p =>
            obtain ⟨b2, rest2⟩ := p
            rw [hs] at h
            simp only [Option.some.injEq, Prod.mk.injEq] at h
            obtain ⟨hb, hr⟩ := h
            subst hb
            subst hr
            subst hbs
            obtain ⟨h1, h2, h3⟩ := ih r (by simp at hx; omega) b2 rest2 hs
            subst h1
            refine ⟨by simp, by simp, ?_⟩
            rw [getLast?_cons_ne '\\' (d :: b2) (by simp), getLast?_cons_ne d b2 h2]
            exact h3
        · rw [if_neg hbs] at h
          cases hs : scanLit (d :: r) with
          | none => rw [hs] at h; simp at h
          | some p =>
            obtain ⟨b2, rest2⟩ := p
            rw [hs] at h
            simp only [Option.some.injEq, Prod.mk.injEq] at h
            obtain ⟨hb, hr⟩ := h
            subst hb
            subst hr
            obtain ⟨h1, h2, h3⟩ := ih (d :: r) (by simp at hx ⊢; omega) b2 rest2 hs
            rw [h1]
            refine ⟨rfl, by simp, ?_⟩
            rw [getLast?_cons_ne c b2 h2]
            exact h3

theorem scanLit_sound {x b rest : List Char} (h : scanLit x = some (b, rest)) :
    x = b ++ rest ∧ b ≠ [] ∧ b.getLast? = some '"' :=
  scanLit_sound_aux x.length x (Nat.le_refl _) b rest h

theorem matchQuoted_sound {s lit rest : List Char} (h : matchQuoted s = some (lit, rest)) :
    s = lit ++ rest ∧ startsWithQuote lit = true ∧ endsWithQuote lit = true ∧ 2 ≤ lit.length := by
  cases s with
  | nil => simp [matchQuoted] at h
  | cons c r =>
    by_cases hc : c = '"'
    · subst hc
      simp only [matchQuoted] at h
      cases hs : scanLit r with
      | none => rw [hs] at h; simp at h
      | some p =>
        obtain ⟨b, rest2⟩ := p
        rw [hs] at h
        simp only [Option.some.injEq, Prod.mk.injEq] at h
        obtain ⟨hb, hr⟩ := h
        subst hb
        subst hr
        obtain ⟨h1, h2, h3⟩ := scanLit_sound hs
        subst h1
        refine ⟨rfl, rfl, ?_, ?_⟩
        · show (('"' :: b).getLast? == some '"') = true
          rw [getLast?_cons_ne '"' b h2, h3]
          rfl
        · cases b with
          | nil => exact absurd rfl h2
          | cons y ys => simp
    · cases c with
      | mk v hv =>
        simp only [matchQuoted] at h
        split at h
        · rename_i heq
          injection heq with heq1 heq2
          exact absurd heq1 hc
        · exact absurd h (by simp)

theorem matchKV_sound {s pre lit rest : List Char} (h : matchKV s = some (pre, lit, rest)) :
    s = pre ++ lit ++ rest ∧ pre ≠ [] ∧
      startsWithQuote lit = true ∧ endsWithQuote lit = true ∧ 2 ≤ lit.length := by
  cases s with
  | nil => simp [matchKV] at h
  | cons c r =>
    by_cases hc : c = ':'
    · subst hc
      simp only [matchKV] at h
      cases hq : matchQuoted (r.dropWhile wsChar) with
      | none => rw [hq] at h; simp at h
      | some p =>
        obtain ⟨lit2, rest2⟩ := p
        rw [hq] at h
        simp only [Option.some.injEq, Prod.mk.injEq] at h
        obtain ⟨hpre, hlit, hrest⟩ := h
        subst hpre
        subst hlit
        subst hrest
        obtain ⟨h1, h2, h3, h4⟩ := matchQuoted_sound hq
        refine ⟨?_, by simp, h2, h3, h4⟩
        conv_lhs => rw [show r = r.takeWhile wsChar ++ r.dropWhile wsChar from
          (List.takeWhile_append_dropWhile (p := wsChar) (l := r)).symm]
        rw [h1]
        simp
    · cases c with
      | mk v hv =>
        simp only [matchKV] at h
        split at h
        · rename_i heq
          injection heq with heq1 heq2
          exact absurd heq1 hc
        · exact absurd h (by simp)

theorem matchKV_len {s pre lit rest : List Char} (h : matchKV s = some (pre, lit, rest)) :
    rest.length < s.length := by
  obtain ⟨hs, hpre, _, _, hlen⟩ := matchKV_sound h
  have : s.length = pre.length + lit.length + rest.length := by rw [hs]; simp; omega
  have : 0 < pre.length := by
    cases pre with
    | nil => exact absurd rfl hpre
    | cons _ _ => simp
  omega

theorem processTextF_nil (fuel : Nat) (translate : List Char → Except Unit (List Char)) :
    processTextF fuel [] translate = [] := by
  cases fuel <;> rfl

theorem processTextF_cons (fuel : Nat) (c : Char) (rest : List Char)
    (translate : List Char → Except Unit (List Char)) :
    processTextF (fuel + 1) (c :: rest) translate =
    match matchKV (c :: rest) with
    | some (pre, lit, after) => replace_value pre lit translate ++ processTextF fuel after translate
    | none => c :: processTextF fuel rest translate := rfl

theorem processTextF_invar : ∀ f1 f2 s translate, s.length ≤ f1 → s.length ≤ f2 →
    processTextF f1 s translate = processTextF f2 s translate := by
  intro f1
  induction f1 with
  | zero =>
    intro f2 s translate h1 h2
    have : s = [] := List.eq_nil_of_length_eq_zero (by omega)
    subst this
    rw [processTextF_nil, processTextF_nil]
  | succ f1 ih =>
    intro f2 s translate h1 h2
    cases s with
    | nil => rw [processTextF_nil, processTextF_nil]
    | cons c rest =>
      cases f2 with
      | zero => simp at h2
      | succ f2 =>
        rw [processTextF_cons, processTextF_cons]
        have hl : (c :: rest).length = rest.length + 1 := by simp
        cases hm : matchKV (c :: rest) with
        | some p =>
          obtain ⟨pre, lit, after⟩ := p
          have hr : after.length < (c :: rest).length := matchKV_len hm
          simp only
          rw [ih f2 after translate (by omega) (by omega)]
        | none =>
          simp only
          rw [ih f2 rest translate (by omega) (by omega)]

theorem process_text_nil (translate : List Char → Except Unit (List Char)) :
    process_text [] translate = [] := rfl

theorem process_text_pos {c : Char} {rest pre lit after : List Char}
    {translate : List Char → Except Unit (List Char)}
    (h : matchKV (c :: rest) = some (pre, lit, after)) :
    process_text (c :: rest) translate =
    replace_value pre lit translate ++ process_text after translate := by
  show processTextF (rest.length + 1) (c :: rest) translate = _
  rw [processTextF_cons, h]
  have hr : after.length < (c :: rest).length := matchKV_len h
  have hl : (c :: rest).length = rest.length + 1 := by simp
  simp only
  rw [processTextF_invar rest.length after.length after translate (by omega) (Nat.le_refl _)]
  rfl

theorem process_text_neg {c : Char} {rest : List Char}
    {translate : List Char → Except Unit (List Char)}
    (h : matchKV (c :: rest) = none) :
    process_text (c :: rest) translate = c :: process_text rest translate := by
  show processTextF (rest.length + 1) (c :: rest) translate = _
  rw [processTextF_cons, h]
  rfl

/-! ### Helper lemmas about the codec -/

theorem endsWithQuote_wrap (s : List Char) : endsWithQuote ('"' :: (s ++ ['"'])) = true := by
  unfold endsWithQuote
  rw [getLast?_cons_ne '"' (s ++ ['"']) (by simp), List.getLast?_concat]
  rfl

theorem innerOf_wrap (s : List Char) : innerOf ('"' :: (s ++ ['"'])) = s := by
  unfold innerOf
  simp

theorem encodeInner_head (xs : List Char) :
    (replaceAll xs ['"'] escQuote).head? ≠ some '"' := by
  cases xs with
  | nil => simp [replaceAll_nil]
  | cons c t =>
    by_cases hc : c = '"'
    · subst hc
      rw [show ('"' :: t) = ['"'] ++ t from rfl, replaceAll_at_head (by simp)]
      simp [escQuote]
    · rw [replaceAll_cons_neg c t escQuote (by
        intro hpre
        obtain ⟨u, hu⟩ := (isPrefixOf_eq_true_iff _ _).1 hpre
        injection hu with h1 h2
        exact hc h1)]
      simp [hc]

theorem decode_encode_inner : ∀ x : List Char,
    replaceAll (replaceAll x ['"'] escQuote) escQuote ['"'] = x := by
  intro x
  induction x with
  | nil => rfl
  | cons c xs ih =>
    by_cases hc : c = '"'
    · subst hc
      rw [show ('"' :: xs) = ['"'] ++ xs from rfl, replaceAll_at_head (by simp),
        replaceAll_at_head (by simp [escQuote]), ih]
    · rw [replaceAll_cons_neg c xs escQuote (by
        intro hpre
        obtain ⟨u, hu⟩ := (isPrefixOf_eq_true_iff _ _).1 hpre
        injection hu with h1 h2
        exact hc h1)]
      by_cases hb : c = '\\'
      · subst hb
        rw [replaceAll_cons_neg '\\' (replaceAll xs ['"'] escQuote) ['"'] (by
          intro hpre
          obtain ⟨u, hu⟩ := (isPrefixOf_eq_true_iff _ _).1 hpre
          injection hu with h1 h2
          have : (replaceAll xs ['"'] escQuote).head? = some '"' := by
            rw [h2]; rfl
          exact encodeInner_head xs this), ih]
      · rw [replaceAll_cons_neg c (replaceAll xs ['"'] escQuote) ['"'] (by
          intro hpre
          obtain ⟨u, hu⟩ := (isPrefixOf_eq_true_iff _ _).1 hpre
          injection hu with h1 h2
          exact hb h1), ih]

/-! ### Claim theorems: script detection, codec, error handling -/

/-- C7: `needs_translation(text)` returns true if and only if `text`
contains at least one character in the Cyrillic code range U+0400 to
U+04FF; in the embedding it is a pure total function. -/
theorem needs_translation_iff_cyrillic (s : List Char) :
    needs_translation s = true ↔ ∃ c ∈ s, 0x400 ≤ c.toNat ∧ c.toNat ≤ 0x4FF := by
  unfold needs_translation looks_like_english
  rw [Bool.not_not]
  rw [List.any_eq_true]
  constructor
  · rintro ⟨c, hc, hcy⟩
    refine ⟨c, hc, ?_⟩
    unfold isCyr at hcy
    simp only [Bool.and_eq_true, decide_eq_true_eq] at hcy
    exact hcy
  · rintro ⟨c, hc, h1, h2⟩
    refine ⟨c, hc, ?_⟩
    unfold isCyr
    simp only [Bool.and_eq_true, decide_eq_true_eq]
    exact ⟨h1, h2⟩

/-- C9: the decode step (the `assert` at the head of
`translate_value_literal`) signals the input-format error exactly when the
literal does not both start and end with the quote character, before any
use of the backend; when the quotes are present no format error is ever
signalled, whatever the backend does. -/
theorem format_error_iff_unquoted (lit : List Char)
    (translate : List Char → Except Unit (List Char)) :
    translate_value_literal lit translate = Except.error PyError.assertionError ↔
    ¬ (startsWithQuote lit = true ∧ endsWithQuote lit = true) := by
  unfold translate_value_literal
  by_cases hq : (startsWithQuote lit && endsWithQuote lit) = true
  · rw [if_pos hq]
    simp only [Bool.and_eq_true] at hq
    constructor
    · intro h
      exfalso
      by_cases hn : needs_translation (replaceAll (innerOf lit) escQuote ['"']) = true
      · rw [if_pos hn] at h
        cases ht : translate (mask_fragments (replaceAll (innerOf lit) escQuote ['"'])).1 with
        | error e => rw [ht] at h; simp at h
        | ok t => rw [ht] at h; simp at h
      · rw [if_neg hn] at h
        simp at h
    · intro h
      exact absurd hq h
  · rw [if_neg hq]
    simp only [Bool.and_eq_true] at hq
    constructor
    · intro _
      exact hq
    · intro _
      rfl

/-- C3: for every string `s` whose unescaped form contains no Cyrillic
character, `translate_value_literal` applied to the quoted literal
`'"' + s + '"'` returns that literal unchanged, for every injected
translate function (in particular for one that always raises), so the
translate capability is never consulted. -/
theorem translate_value_literal_id_of_no_cyrillic (s : List Char)
    (translate : List Char → Except Unit (List Char))
    (h : needs_translation (replaceAll s escQuote ['"']) = false) :
    translate_value_literal ('"' :: (s ++ ['"'])) translate =
      Except.ok ('"' :: (s ++ ['"'])) := by
  unfold translate_value_literal
  have hq : (startsWithQuote ('"' :: (s ++ ['"'])) && endsWithQuote ('"' :: (s ++ ['"']))) =
      true := by
    rw [endsWithQuote_wrap]
    rfl
  rw [if_pos hq, innerOf_wrap, if_neg (by rw [h]; exact Bool.false_ne_true)]

/-- Witness for C3 at a concrete already-Latin literal and an
always-raising backend. -/
theorem translate_value_literal_id_of_no_cyrillic_witness :
    needs_translation (replaceAll ("Hello".data) escQuote (['"'])) = false ∧
    translate_value_literal ('"' :: ("Hello".data ++ ['"'])) (fun _ => Except.error ()) =
      Except.ok ('"' :: ("Hello".data ++ ['"'])) :=
  ⟨by decide, translate_value_literal_id_of_no_cyrillic ("Hello".data)
    (fun _ => Except.error ()) (by decide)⟩

/-- C5: decoding the encoding of any logical string returns that string:
`encode` escapes every quote and wraps in quotes, `decode` strips the
quotes and un-escapes exactly the escaped quotes. -/
theorem decode_encode_roundtrip (x : List Char) :
    LiteralCodec.decode (LiteralCodec.encode x) = some x := by
  unfold LiteralCodec.encode LiteralCodec.decode
  have hq : (startsWithQuote ('"' :: (replaceAll x ['"'] escQuote ++ ['"'])) &&
      endsWithQuote ('"' :: (replaceAll x ['"'] escQuote ++ ['"']))) = true := by
    rw [endsWithQuote_wrap]
    rfl
  rw [if_pos hq, innerOf_wrap, decode_encode_inner]

/-- C4 counterexample: with an always-raising translate capability and a
Cyrillic literal, `translate_value_literal` itself does not return the
literal; it propagates the backend exception. -/
theorem translate_value_literal_error_on_raising_backend :
    translate_value_literal ("\"Привіт\"".data) (fun _ => Except.error ()) =
      Except.error PyError.backendError := by decide

/-- C4 amended: with an always-raising translate capability and a literal
whose decoded value contains Cyrillic, `translate_value_literal`
propagates an exception, and it is the per-match wrapper `_replace_value`
that recovers, returning the captured prefix and the literal unchanged. -/
theorem replace_value_failsafe_on_raising_backend (pre lit : List Char)
    (h : needs_translation (replaceAll (innerOf lit) escQuote ['"']) = true) :
    (∃ e, translate_value_literal lit (fun _ => Except.error ()) = Except.error e) ∧
    replace_value pre lit (fun _ => Except.error ()) = pre ++ lit := by
  have htv : ∃ e, translate_value_literal lit (fun _ => Except.error ()) = Except.error e := by
    unfold translate_value_literal
    by_cases hq : (startsWithQuote lit && endsWithQuote lit) = true
    · rw [if_pos hq, if_pos h]
      exact ⟨PyError.backendError, rfl⟩
    · rw [if_neg hq]
      exact ⟨PyError.assertionError, rfl⟩
  refine ⟨htv, ?_⟩
  obtain ⟨e, he⟩ := htv
  unfold replace_value
  rw [he]

/-- Witness for C4 amended at a concrete Cyrillic literal. -/
theorem replace_value_failsafe_on_raising_backend_witness :
    needs_translation (replaceAll (innerOf ("\"Привіт\"".data)) escQuote (['"'])) = true ∧
    ((∃ e, translate_value_literal ("\"Привіт\"".data) (fun _ => Except.error ()) =
        Except.error e) ∧
      replace_value ("title: ".data) ("\"Привіт\"".data) (fun _ => Except.error ()) =
        "title: ".data ++ "\"Привіт\"".data) :=
  ⟨by decide, replace_value_failsafe_on_raising_backend ("title: ".data) ("\"Привіт\"".data)
    (by decide)⟩

/-! ### C10: quoting shape of the pipeline output -/

theorem encode_body_quote_escaped : ∀ x u v : List Char,
    replaceAll x ['"'] escQuote = u ++ '"' :: v → u ≠ [] ∧ u.getLast? = some '\\' := by
  intro x
  induction x with
  | nil =>
    intro u v h
    rw [replaceAll_nil] at h
    exact absurd h.symm (by cases u <;> simp)
  | cons c xs ih =>
    intro u v h
    by_cases hc : c = '"'
    · subst hc
      rw [show ('"' :: xs) = ['"'] ++ xs from rfl, replaceAll_at_head (by simp)] at h
      cases u with
      | nil =>
        injection h with h1 h2
        exact absurd h1 (by decide)
      | cons a u' =>
        injection h with h1 h2
        subst h1
        cases u' with
        | nil => exact ⟨by simp, rfl⟩
        | cons b u'' =>
          injection h2 with h3 h4
          subst h3
          obtain ⟨hne, hlast⟩ := ih u'' v h4
          refine ⟨by simp, ?_⟩
          rw [getLast?_cons_ne '\\' ('"' :: u'') (by simp), getLast?_cons_ne '"' u'' hne]
          exact hlast
    · rw [replaceAll_cons_neg c xs escQuote (by
        intro hpre
        obtain ⟨w, hw⟩ := (isPrefixOf_eq_true_iff _ _).1 hpre
        injection hw with h1 h2
        exact hc h1)] at h
      cases u with
      | nil =>
        injection h with h1 h2
        exact absurd h1 hc
      | cons a u' =>
        injection h with h1 h2
        subst h1
        obtain ⟨hne, hlast⟩ := ih u' v h2
        refine ⟨by simp, ?_⟩
        rw [getLast?_cons_ne _ u' hne]
        exact hlast

/-- C10 counterexample: a well-quoted literal whose interior holds a bare
quote and needs no translation is returned unchanged by
`translate_value_literal` even though a quote strictly inside it is not
preceded by a backslash. -/
theorem tvl_output_internal_quote_unescaped :
    translate_value_literal ("\"a\"b\"".data) (fun s => Except.ok s) =
      Except.ok ("\"a\"b\"".data) ∧
    "\"a\"b\"".data = "\"a".data ++ '"' :: "b\"".data ∧
    "\"a".data ≠ [] ∧ "b\"".data ≠ [] ∧ ("\"a".data).getLast? ≠ some '\\' := by decide

/-- C10 amended: for every literal that starts and ends with the quote
character and every translate call that returns a string, the pipeline
output starts and ends with the quote character, and, provided the decoded
value needed translation (so that the output is rebuilt by `encode`),
every quote character strictly inside the output is immediately preceded
by a backslash. -/
theorem tvl_output_quoted_escaped (lit out : List Char)
    (translate : List Char → Except Unit (List Char))
    (hq : startsWithQuote lit = true ∧ endsWithQuote lit = true)
    (hok : translate_value_literal lit translate = Except.ok out) :
    (startsWithQuote out = true ∧ endsWithQuote out = true) ∧
    (needs_translation (replaceAll (innerOf lit) escQuote ['"']) = true →
      ∀ u v, out = u ++ '"' :: v → u = [] ∨ v = [] ∨ u.getLast? = some '\\') := by
  unfold translate_value_literal at hok
  rw [if_pos (by rw [hq.1, hq.2]; rfl)] at hok
  by_cases hn : needs_translation (replaceAll (innerOf lit) escQuote ['"']) = true
  · rw [if_pos hn] at hok
    cases ht : translate (mask_fragments (replaceAll (innerOf lit) escQuote ['"'])).1 with
    | error e => rw [ht] at hok; simp at hok
    | ok t =>
      rw [ht] at hok
      simp only [Except.ok.injEq] at hok
      subst hok
      unfold LiteralCodec.encode
      set x := unmask_fragments t (mask_fragments (replaceAll (innerOf lit) escQuote ['"'])).2
        with hx
      refine ⟨⟨rfl, endsWithQuote_wrap _⟩, fun _ u v huv => ?_⟩
      cases u with
      | nil => exact Or.inl rfl
      | cons a u' =>
        injection huv with h1 h2
        subst h1
        rcases List.eq_nil_or_concat v with hv | ⟨v0, cl, hv⟩
        · exact Or.inr (Or.inl hv)
        · subst hv
          have h2' : replaceAll x ['"'] escQuote ++ ['"'] = (u' ++ '"' :: v0) ++ [cl] := by
            rw [h2]
            simp
          obtain ⟨h3, _⟩ := List.append_inj' h2' (by simp)
          obtain ⟨hne, hlast⟩ := encode_body_quote_escaped x u' v0 h3
          refine Or.inr (Or.inr ?_)
          rw [getLast?_cons_ne '"' u' hne]
          exact hlast
  · rw [if_neg hn] at hok
    simp only [Except.ok.injEq] at hok
    subst hok
    exact ⟨⟨hq.1, hq.2⟩, fun hcon => absurd hcon hn⟩

/-- Witness for C10 amended at a concrete Cyrillic literal and a backend
whose output contains a bare quote. -/
theorem tvl_output_quoted_escaped_witness :
    (startsWithQuote ("\"Привіт\"".data) = true ∧ endsWithQuote ("\"Привіт\"".data) = true) ∧
    translate_value_literal ("\"Привіт\"".data) (fun _ => Except.ok ("A\"B".data)) =
      Except.ok ("\"A\\\"B\"".data) ∧
    ((startsWithQuote ("\"A\\\"B\"".data) = true ∧ endsWithQuote ("\"A\\\"B\"".data) = true) ∧
      (needs_translation (replaceAll (innerOf ("\"Привіт\"".data)) escQuote ['"']) = true →
        ∀ u v, "\"A\\\"B\"".data = u ++ '"' :: v →
          u = [] ∨ v = [] ∨ u.getLast? = some '\\')) :=
  ⟨⟨by decide, by decide⟩, by decide,
    tvl_output_quoted_escaped ("\"Привіт\"".data) ("\"A\\\"B\"".data)
      (fun _ => Except.ok ("A\"B".data)) ⟨by decide, by decide⟩ (by decide)⟩

/-! ### The mask-token collision analysis

The fragments and unmatched segments of `mask_fragments` are substrings of
the input.  When the input contains the letter sequence `MASK` nowhere,
every occurrence of a token `__MASK<i>__` in the masked text (and in the
intermediate strings of `unmask_fragments`) is an inserted token, because
any occurrence must place the four letters `MASK` either inside input
material (excluded) or aligned with the `MASK` of an inserted token, and
the decimal index then forces the alignment to be exact. -/

theorem containsSub_iff (p s : List Char) :
    containsSub p s = true ↔ ∃ u v, s = u ++ p ++ v := by
  induction s with
  | nil =>
    cases p with
    | nil => simp [containsSub, List.isPrefixOf]
    | cons a t => simp [containsSub, List.isPrefixOf]
  | cons c t ih =>
    simp only [containsSub, Bool.or_eq_true, ih, isPrefixOf_eq_true_iff]
    constructor
    · rintro (⟨w, hw⟩ | ⟨u, v, huv⟩)
      · exact ⟨[], w, by simp [hw]⟩
      · exact ⟨c :: u, v, by simp [huv]⟩
    · rintro ⟨u, v, huv⟩
      cases u with
      | nil => exact Or.inl ⟨v, by simpa using huv⟩
      | cons a u' =>
        injection huv with h1 h2
        subst h1
        exact Or.inr ⟨u', v, h2⟩

theorem maskFree_part {s u x v : List Char} (h : maskFree s) (hs : s = u ++ x ++ v) :
    maskFree x := by
  unfold maskFree at h ⊢
  by_contra hx
  have hx' : containsSub MASKseq x = true := by
    cases hcs : containsSub MASKseq x with
    | false => exact absurd hcs hx
    | true => rfl
  obtain ⟨a, b, hab⟩ := (containsSub_iff _ _).1 hx'
  have : containsSub MASKseq s = true := by
    rw [containsSub_iff]
    exact ⟨u ++ a, b ++ v, by rw [hs, hab]; simp⟩
  rw [this] at h
  cases h

theorem maskFree_tail {c : Char} {s : List Char} (h : maskFree (c :: s)) : maskFree s :=
  maskFree_part h (by simp : c :: s = [c] ++ s ++ [])

theorem maskFree_append_left {a b : List Char} (h : maskFree (a ++ b)) : maskFree a :=
  maskFree_part h (by simp : a ++ b = [] ++ a ++ b)

theorem maskFree_append_right {a b : List Char} (h : maskFree (a ++ b)) : maskFree b :=
  maskFree_part h (by simp : a ++ b = a ++ b ++ [])

theorem digit_ne_underscore {c : Char} (h : isDigitCh c = true) : c ≠ '_' := by
  intro he
  subst he
  exact absurd h (by decide)

theorem digits_underscore_eq : ∀ d₁ : List Char, (∀ c ∈ d₁, isDigitCh c = true) →
    ∀ d₂ : List Char, (∀ c ∈ d₂, isDigitCh c = true) →
    ∀ l₁ l₂ : List Char, d₁ ++ '_' :: l₁ = d₂ ++ '_' :: l₂ → d₁ = d₂ := by
  intro d₁
  induction d₁ with
  | nil =>
    intro _ d₂ h2 l₁ l₂ h
    cases d₂ with
    | nil => rfl
    | cons c d₂' =>
      injection h with h1 h2'
      exact absurd h1.symm (digit_ne_underscore (h2 c (by simp)))
  | cons a d₁' ih =>
    intro h1 d₂ h2 l₁ l₂ h
    cases d₂ with
    | nil =>
      injection h with ha hb
      exact absurd ha (digit_ne_underscore (h1 a (by simp)))
    | cons c d₂' =>
      injection h with ha hb
      subst ha
      rw [ih (fun c hc => h1 c (by simp [hc])) d₂' (fun c hc => h2 c (by simp [hc])) l₁ l₂ hb]

/-- The index of a token is determined by what follows `__MASK`: a token
is a prefix of a token-headed text only for the same index. -/
theorem tok_prefix_tok {i j : Nat} (hij : i ≠ j) (X : List Char) :
    ¬ (maskTok i).isPrefixOf
      ('_' :: '_' :: 'M' :: 'A' :: 'S' :: 'K' :: (natDigits j ++ ('_' :: '_' :: X))) = true := by
  intro h
  obtain ⟨w, hw⟩ := (isPrefixOf_eq_true_iff _ _).1 h
  simp only [maskTok, List.cons_append, List.cons.injEq, true_and] at hw
  have hw' : natDigits j ++ '_' :: ('_' :: X) = natDigits i ++ '_' :: ('_' :: w) := by
    rw [hw]
    simp
  exact hij (natDigits_inj i j
    (digits_underscore_eq (natDigits i) (natDigits_digits i)
      (natDigits j) (natDigits_digits j) _ _ hw'.symm))

/-- Skipping a run that avoids the head character of the pattern. -/
theorem replaceAll_skip_chars {p : List Char} {h0 : Char} (hp : p.head? = some h0) :
    ∀ a : List Char, (∀ c ∈ a, c ≠ h0) → ∀ b r : List Char,
    replaceAll (a ++ b) p r = a ++ replaceAll b p r := by
  intro a
  induction a with
  | nil => intro _ b r; rfl
  | cons c a' ih =>
    intro ha b r
    have hnp : ¬ p.isPrefixOf (c :: (a' ++ b)) = true := by
      intro hpre
      obtain ⟨w, hw⟩ := (isPrefixOf_eq_true_iff _ _).1 hpre
      cases p with
      | nil => simp at hp
      | cons p0 p' =>
        injection hp with hp0
        subst hp0
        injection hw with h1 h2
        exact ha c (by simp) h1
    rw [show (c :: a') ++ b = c :: (a' ++ b) from rfl, replaceAll_cons_neg c (a' ++ b) r hnp,
      ih (fun d hd => ha d (by simp [hd])) b r]
    rfl

/-- A token can only start at a token boundary: a MASK-free string `a`
followed by token material `'_' :: '_' :: b` admits a token prefix only
when `a` is empty. -/
theorem tok_prefix_needs_boundary : ∀ a : List Char, maskFree a → ∀ b q : List Char,
    ('_' :: '_' :: 'M' :: 'A' :: 'S' :: 'K' :: q).isPrefixOf (a ++ '_' :: '_' :: b) = true →
    a = [] := by
  intro a ha b q h
  obtain ⟨w, hw⟩ := (isPrefixOf_eq_true_iff _ _).1 h
  rcases a with _ | ⟨c1, _ | ⟨c2, _ | ⟨c3, _ | ⟨c4, _ | ⟨c5, _ | ⟨c6, a'⟩⟩⟩⟩⟩⟩
  · rfl
  · simp only [List.cons_append, List.nil_append, List.cons.injEq] at hw
    exact absurd hw.2.2.1 (by decide)
  · simp only [List.cons_append, List.nil_append, List.cons.injEq] at hw
    exact absurd hw.2.2.1 (by decide)
  · simp only [List.cons_append, List.nil_append, List.cons.injEq] at hw
    exact absurd hw.2.2.2.1 (by decide)
  · simp only [List.cons_append, List.nil_append, List.cons.injEq] at hw
    exact absurd hw.2.2.2.2.1 (by decide)
  · simp only [List.cons_append, List.nil_append, List.cons.injEq] at hw
    exact absurd hw.2.2.2.2.2.1 (by decide)
  · simp only [List.cons_append, List.nil_append, List.cons.injEq] at hw
    obtain ⟨h1, h2, h3, h4, h5, h6, -⟩ := hw
    subst h1
    subst h2
    subst h3
    subst h4
    subst h5
    subst h6
    exfalso
    have htrue : containsSub MASKseq ('_' :: '_' :: 'M' :: 'A' :: 'S' :: 'K' :: a') = true :=
      (containsSub_iff _ _).2 ⟨['_', '_'], a', by simp [MASKseq]⟩
    unfold maskFree at ha
    rw [htrue] at ha
    cases ha

/-- Skipping a MASK-free run before a token boundary. -/
theorem replaceAll_skip_maskfree (j : Nat) (v : List Char) : ∀ a : List Char, maskFree a →
    ∀ b : List Char, replaceAll (a ++ '_' :: '_' :: b) (maskTok j) v =
      a ++ replaceAll ('_' :: '_' :: b) (maskTok j) v := by
  intro a
  induction a with
  | nil => intro _ b; rfl
  | cons c a' ih =>
    intro ha b
    have hnp : ¬ (maskTok j).isPrefixOf (c :: (a' ++ '_' :: '_' :: b)) = true := by
      intro hpre
      have hres : c :: a' = [] := tok_prefix_needs_boundary (c :: a') ha b _ hpre
      cases hres
    rw [show (c :: a') ++ '_' :: '_' :: b = c :: (a' ++ '_' :: '_' :: b) from rfl,
      replaceAll_cons_neg c _ v hnp, ih (maskFree_tail ha) b]
    rfl

/-- Peeling one raw character off a masked text: a masked text starting
with a non-underscore character starts with a raw input character. -/
theorem maskAux_head_raw {r : List Char} {k : Nat} {c : Char} {z : List Char}
    (hc : c ≠ '_') (h : (maskAux r k).1 = c :: z) :
    ∃ r', r = c :: r' ∧ z = (maskAux r' k).1 := by
  cases r with
  | nil =>
    simp only [maskAux_nil] at h
    cases h
  | cons d r' =>
    cases hm : matchPlaceholder (d :: r') with
    | some p =>
      obtain ⟨f, rr⟩ := p
      simp only [maskAux_pos hm] at h
      simp only [maskTok, List.cons_append] at h
      injection h with h1 _
      exact absurd h1.symm hc
    | none =>
      simp only [maskAux_neg hm] at h
      injection h with h1 h2
      subst h1
      exact ⟨r', rfl, h2.symm⟩

/-- A masked text of a MASK-free input never starts with `MASK`. -/
theorem maskAux_no_mask_head : ∀ r : List Char, ∀ k : Nat, maskFree r →
    ∀ t, (maskAux r k).1 ≠ 'M' :: 'A' :: 'S' :: 'K' :: t := by
  intro r k hr t h
  obtain ⟨r1, hr1, hz1⟩ := maskAux_head_raw (by decide) h
  obtain ⟨r2, hr2, hz2⟩ := maskAux_head_raw (by decide) hz1.symm
  obtain ⟨r3, hr3, hz3⟩ := maskAux_head_raw (by decide) hz2.symm
  obtain ⟨r4, hr4, hz4⟩ := maskAux_head_raw (by decide) hz3.symm
  subst hr4
  subst hr3
  subst hr2
  subst hr1
  have htrue : containsSub MASKseq ('M' :: 'A' :: 'S' :: 'K' :: r4) = true :=
    (containsSub_iff _ _).2 ⟨[], r4, by simp [MASKseq]⟩
  unfold maskFree at hr
  rw [htrue] at hr
  cases hr

/-- A masked text of a MASK-free input never starts with `_MASK`. -/
theorem maskAux_no_underscore_mask_head : ∀ r : List Char, ∀ k : Nat, maskFree r →
    ∀ t, (maskAux r k).1 ≠ '_' :: 'M' :: 'A' :: 'S' :: 'K' :: t := by
  intro r k hr t h
  cases r with
  | nil =>
    simp only [maskAux_nil] at h
    cases h
  | cons d r' =>
    cases hm : matchPlaceholder (d :: r') with
    | some p =>
      obtain ⟨f, rr⟩ := p
      simp only [maskAux_pos hm] at h
      simp only [maskTok, List.cons_append] at h
      injection h with h1 h2
      injection h2 with h3 h4
      exact absurd h3 (by decide)
    | none =>
      simp only [maskAux_neg hm] at h
      injection h with h1 h2
      exact maskAux_no_mask_head r' k (maskFree_tail hr) _ h2

/-- Walking a replacement scan across a whole token of a different index:
no occurrence of `__MASK<j>__` starts inside `__MASK<k>__` when the
following material neither starts with `MASK` nor with `_MASK`. -/
theorem replaceAll_skip_token {k j : Nat} (hjk : j ≠ k) (v : List Char) {m : List Char}
    (hA : ∀ t, m ≠ 'M' :: 'A' :: 'S' :: 'K' :: (natDigits j ++ ('_' :: '_' :: t)))
    (hB : ∀ t, m ≠ '_' :: 'M' :: 'A' :: 'S' :: 'K' :: (natDigits j ++ ('_' :: '_' :: t))) :
    replaceAll ('_' :: '_' :: 'M' :: 'A' :: 'S' :: 'K' :: (natDigits k ++ ('_' :: '_' :: m)))
      (maskTok j) v =
    '_' :: '_' :: 'M' :: 'A' :: 'S' :: 'K' ::
      (natDigits k ++ ('_' :: '_' :: (replaceAll m (maskTok j) v))) := by
  rw [replaceAll_cons_neg _ _ _ (tok_prefix_tok hjk m)]
  rw [replaceAll_cons_neg _ _ _ (by
    intro hpre
    obtain ⟨w, hw⟩ := (isPrefixOf_eq_true_iff _ _).1 hpre
    simp only [maskTok, List.cons_append, List.cons.injEq] at hw
    exact absurd hw.2.1 (by decide))]
  rw [replaceAll_cons_neg _ _ _ (by
    intro hpre
    obtain ⟨w, hw⟩ := (isPrefixOf_eq_true_iff _ _).1 hpre
    simp only [maskTok, List.cons_append, List.cons.injEq] at hw
    exact absurd hw.1 (by decide))]
  rw [replaceAll_cons_neg _ _ _ (by
    intro hpre
    obtain ⟨w, hw⟩ := (isPrefixOf_eq_true_iff _ _).1 hpre
    simp only [maskTok, List.cons_append, List.cons.injEq] at hw
    exact absurd hw.1 (by decide))]
  rw [replaceAll_cons_neg _ _ _ (by
    intro hpre
    obtain ⟨w, hw⟩ := (isPrefixOf_eq_true_iff _ _).1 hpre
    simp only [maskTok, List.cons_append, List.cons.injEq] at hw
    exact absurd hw.1 (by decide))]
  rw [replaceAll_cons_neg _ _ _ (by
    intro hpre
    obtain ⟨w, hw⟩ := (isPrefixOf_eq_true_iff _ _).1 hpre
    simp only [maskTok, List.cons_append, List.cons.injEq] at hw
    exact absurd hw.1 (by decide))]
  rw [replaceAll_skip_chars (show (maskTok j).head? = some '_' from rfl) (natDigits k)
    (fun c hc => digit_ne_underscore (natDigits_digits k c hc)) _ v]
  rw [replaceAll_cons_neg _ _ _ (by
    intro hpre
    obtain ⟨w, hw⟩ := (isPrefixOf_eq_true_iff _ _).1 hpre
    simp only [maskTok, List.cons_append, List.append_assoc, List.nil_append,
      List.cons.injEq] at hw
    exact hA _ hw.2.2)]
  rw [replaceAll_cons_neg _ _ _ (by
    intro hpre
    obtain ⟨w, hw⟩ := (isPrefixOf_eq_true_iff _ _).1 hpre
    simp only [maskTok, List.cons_append, List.append_assoc, List.nil_append,
      List.cons.injEq] at hw
    exact hB _ hw.2)]

/-- No occurrence of an earlier token `__MASK<j>__`, `j < k`, exists in
the masked text produced with starting index `k` from a MASK-free input. -/
theorem replaceAll_maskAux_notok : ∀ n : Nat, ∀ r : List Char, r.length ≤ n →
    ∀ k j : Nat, ∀ v : List Char, maskFree r → j < k →
    replaceAll (maskAux r k).1 (maskTok j) v = (maskAux r k).1 := by
  intro n
  induction n with
  | zero =>
    intro r hr k j v _ _
    have : r = [] := List.eq_nil_of_length_eq_zero (by omega)
    subst this
    simp only [maskAux_nil]
    exact replaceAll_nil _ _
  | succ n ih =>
    intro r hlen k j v hf hjk
    cases r with
    | nil =>
      simp only [maskAux_nil]
      exact replaceAll_nil _ _
    | cons d r' =>
      have hL : (d :: r').length = r'.length + 1 := by simp
      cases hm : matchPlaceholder (d :: r') with
      | some p =>
        obtain ⟨f, rr⟩ := p
        simp only [maskAux_pos hm]
        obtain ⟨hsplit, hfne⟩ := matchPlaceholder_sound hm
        have hrr_free : maskFree rr :=
          maskFree_part hf (show d :: r' = f ++ rr ++ [] from by rw [hsplit]; simp)
        have hrr_len : rr.length ≤ n := by
          have h1 := matchPlaceholder_len hm
          rw [hL] at h1
          omega
        have hA := maskAux_no_mask_head rr (k + 1) hrr_free
        have hB := maskAux_no_underscore_mask_head rr (k + 1) hrr_free
        have hshape : maskTok k ++ (maskAux rr (k + 1)).1 =
            '_' :: '_' :: 'M' :: 'A' :: 'S' :: 'K' ::
              (natDigits k ++ ('_' :: '_' :: (maskAux rr (k + 1)).1)) := by
          simp [maskTok]
        rw [hshape, replaceAll_skip_token (by omega) v (fun t => hA _) (fun t => hB _),
          ih rr hrr_len (k + 1) j v hrr_free (by omega)]
      | none =>
        simp only [maskAux_neg hm]
        have hfree' : maskFree r' := maskFree_tail hf
        have hd : ¬ (maskTok j).isPrefixOf (d :: (maskAux r' k).1) = true := by
          intro hpre
          obtain ⟨w, hw⟩ := (isPrefixOf_eq_true_iff _ _).1 hpre
          simp only [maskTok, List.cons_append, List.cons.injEq] at hw
          exact maskAux_no_underscore_mask_head r' k hfree' _ hw.2
        rw [replaceAll_cons_neg d _ v hd, ih r' (by omega) k j v hfree' hjk]

theorem unmaskFrom_cons (k : Nat) (s f : List Char) (fs : List (List Char)) :
    unmaskFrom k s (f :: fs) = unmaskFrom (k + 1) (replaceAll s (maskTok k) f) fs := rfl

/-- The unmasking scan undoes the masking scan, for MASK-free inputs, at
every starting index and around every MASK-free processed prefix. -/
theorem unmaskFrom_maskAux : ∀ n : Nat, ∀ s : List Char, s.length ≤ n → ∀ k : Nat,
    ∀ x : List Char, maskFree (x ++ s) →
    unmaskFrom k (x ++ (maskAux s k).1) (maskAux s k).2 = x ++ s := by
  intro n
  induction n with
  | zero =>
    intro s hs k x _
    have : s = [] := List.eq_nil_of_length_eq_zero (by omega)
    subst this
    simp only [maskAux_nil]
    rfl
  | succ n ih =>
    intro s hs k x hf
    cases s with
    | nil =>
      simp only [maskAux_nil]
      rfl
    | cons d r' =>
      have hL : (d :: r').length = r'.length + 1 := by simp
      cases hm : matchPlaceholder (d :: r') with
      | some p =>
        obtain ⟨f, rr⟩ := p
        obtain ⟨hsplit, hfne⟩ := matchPlaceholder_sound hm
        simp only [maskAux_pos hm]
        have hrr_len : rr.length ≤ n := by
          have h1 := matchPlaceholder_len hm
          rw [hL] at h1
          omega
        have hx_free : maskFree x := maskFree_append_left hf
        have hxf_free : maskFree ((x ++ f) ++ rr) := by
          have : x ++ d :: r' = (x ++ f) ++ rr := by rw [hsplit]; simp
          rw [← this]
          exact hf
        have hrr_free : maskFree rr := maskFree_append_right hxf_free
        have htok_ne : maskTok k ≠ ([] : List Char) := by simp [maskTok]
        rw [unmaskFrom_cons]
        have hcalc : replaceAll (x ++ (maskTok k ++ (maskAux rr (k + 1)).1)) (maskTok k) f =
            (x ++ f) ++ (maskAux rr (k + 1)).1 := by
          have hshape : maskTok k ++ (maskAux rr (k + 1)).1 =
              '_' :: '_' :: ('M' :: 'A' :: 'S' :: 'K' ::
                (natDigits k ++ ('_' :: '_' :: (maskAux rr (k + 1)).1))) := by
            simp [maskTok]
          rw [hshape, replaceAll_skip_maskfree k f x hx_free _, ← hshape,
            replaceAll_at_head htok_ne _ f,
            replaceAll_maskAux_notok n rr hrr_len (k + 1) k f hrr_free (by omega)]
          simp
        rw [hcalc, ih rr hrr_len (k + 1) (x ++ f) hxf_free, hsplit]
        simp
      | none =>
        simp only [maskAux_neg hm]
        have hfree' : maskFree ((x ++ [d]) ++ r') := by
          have : x ++ d :: r' = (x ++ [d]) ++ r' := by simp
          rw [← this]
          exact hf
        have hx : x ++ d :: (maskAux r' k).1 = (x ++ [d]) ++ (maskAux r' k).1 := by simp
        rw [hx, ih r' (by omega) k (x ++ [d]) hfree']
        simp

/-- C2 counterexample: for the input `%1__MASK0__`, which already contains
the text of the first mask token, unmasking the masked form does not
return the input (the collision duplicates the fragment instead). -/
theorem unmask_mask_roundtrip_fails :
    unmask_fragments ((mask_fragments ("%1__MASK0__".data)).1)
      ((mask_fragments ("%1__MASK0__".data)).2) ≠ "%1__MASK0__".data := by decide

/-- C2 amended: for every string `s` that does not contain the character
sequence `MASK` (so that no fragment of the reserved token text occurs in
user content), substituting each `__MASK<i>__` token of `mask_fragments`
back by its recorded fragment in index order returns exactly `s`. -/
theorem unmask_mask_roundtrip (s : List Char) (h : maskFree s) :
    unmask_fragments ((mask_fragments s).1) ((mask_fragments s).2) = s := by
  have hmain := unmaskFrom_maskAux s.length s (Nat.le_refl _) 0 [] (by simpa using h)
  simpa using hmain

/-- Witness for C2 amended on the spec's placeholder example string. -/
theorem unmask_mask_roundtrip_witness :
    maskFree ("Привіт %1, у вас {count} елементів".data) ∧
    unmask_fragments ((mask_fragments ("Привіт %1, у вас {count} елементів".data)).1)
      ((mask_fragments ("Привіт %1, у вас {count} елементів".data)).2) =
      "Привіт %1, у вас {count} елементів".data :=
  ⟨by decide, unmask_mask_roundtrip ("Привіт %1, у вас {count} елементів".data) (by decide)⟩

/-! ### C8: structural decomposition of the masking scan -/

theorem interleave_cons_seg (c : Char) (u : List Char) (us fs : List (List Char)) :
    interleaveF ((c :: u) :: us) fs = c :: interleaveF (u :: us) fs := by
  cases fs <;> rfl

theorem maskAux_decomposition : ∀ m : Nat, ∀ s : List Char, s.length ≤ m → ∀ n : Nat,
    ∃ segs : List (List Char),
      segs.length = (maskAux s n).2.length + 1 ∧
      s = interleaveF segs (maskAux s n).2 ∧
      (maskAux s n).1 =
        interleaveF segs (((List.range (maskAux s n).2.length)).map (fun i => maskTok (n + i))) ∧
      ∀ i : Nat, i < (maskAux s n).2.length →
        ∃ rest, matchPlaceholder ((maskAux s n).2.getD i [] ++ rest) =
          some ((maskAux s n).2.getD i [], rest) := by
  intro m
  induction m with
  | zero =>
    intro s hs n
    have : s = [] := List.eq_nil_of_length_eq_zero (by omega)
    subst this
    refine ⟨[[]], by simp [maskAux_nil], by simp [maskAux_nil, interleaveF], ?_, ?_⟩
    · simp [maskAux_nil, interleaveF]
    · intro i hi
      simp [maskAux_nil] at hi
  | succ m ih =>
    intro s hs n
    cases s with
    | nil =>
      refine ⟨[[]], by simp [maskAux_nil], by simp [maskAux_nil, interleaveF], ?_, ?_⟩
      · simp [maskAux_nil, interleaveF]
      · intro i hi
        simp [maskAux_nil] at hi
    | cons d r' =>
      have hL : (d :: r').length = r'.length + 1 := by simp
      cases hm : matchPlaceholder (d :: r') with
      | some p =>
        obtain ⟨f, rr⟩ := p
        obtain ⟨hsplit, hfne⟩ := matchPlaceholder_sound hm
        have hrr_len : rr.length ≤ m := by
          have h1 := matchPlaceholder_len hm
          rw [hL] at h1
          omega
        obtain ⟨segs, hlen, hsrc, hmask, hfrag⟩ := ih rr hrr_len (n + 1)
        refine ⟨[] :: segs, ?_, ?_, ?_, ?_⟩
        · simp only [maskAux_pos hm]
          simp [hlen]
        · simp only [maskAux_pos hm]
          cases segs with
          | nil => simp at hlen
          | cons u us =>
            show d :: r' = [] ++ f ++ interleaveF (u :: us) (maskAux rr (n + 1)).2
            rw [← hsrc, hsplit]
            simp
        · simp only [maskAux_pos hm]
          have hrange : List.range ((maskAux rr (n + 1)).2.length + 1) =
              0 :: (List.range ((maskAux rr (n + 1)).2.length)).map Nat.succ :=
            List.range_succ_eq_map _
          rw [List.length_cons, hrange]
          cases segs with
          | nil => simp at hlen
          | cons u us =>
            show maskTok n ++ (maskAux rr (n + 1)).1 =
              [] ++ maskTok (n + 0) ++ interleaveF (u :: us)
                (((List.range ((maskAux rr (n + 1)).2.length)).map Nat.succ).map
                  (fun i => maskTok (n + i)))
            rw [List.map_map]
            have hfun : ((fun i => maskTok (n + i)) ∘ Nat.succ) =
                (fun i => maskTok ((n + 1) + i)) := by
              funext i
              have : n + (i + 1) = (n + 1) + i := by omega
              simp [Function.comp, Nat.succ_eq_add_one, this]
            rw [hfun, ← hmask]
            simp
        · intro i hi
          simp only [maskAux_pos hm] at hi ⊢
          cases i with
          | zero =>
            refine ⟨rr, ?_⟩
            simp only [List.getD_cons_zero]
            rw [← hsplit]
            exact hm
          | succ i' =>
            have hi' : i' < (maskAux rr (n + 1)).2.length := by
              simp at hi
              omega
            obtain ⟨rest, hrest⟩ := hfrag i' hi'
            refine ⟨rest, ?_⟩
            simp only [List.getD_cons_succ]
            exact hrest
      | none =>
        obtain ⟨segs, hlen, hsrc, hmask, hfrag⟩ := ih r' (by omega) n
        cases segs with
        | nil => simp at hlen
        | cons u us =>
          refine ⟨(d :: u) :: us, ?_, ?_, ?_, ?_⟩
          · simp only [maskAux_neg hm]
            simpa using hlen
          · simp only [maskAux_neg hm]
            rw [interleave_cons_seg, ← hsrc]
          · simp only [maskAux_neg hm]
            rw [interleave_cons_seg, ← hmask]
          · intro i hi
            simp only [maskAux_neg hm] at hi ⊢
            exact hfrag i hi

theorem unmaskFrom_eq_fold : ∀ fs : List (List Char), ∀ k : Nat, ∀ t : List Char,
    unmaskFrom k t fs =
    (List.range fs.length).foldl (fun acc i => replaceAll acc (maskTok (k + i)) (fs.getD i [])) t := by
  intro fs
  induction fs with
  | nil => intro k t; rfl
  | cons f fs' ih =>
    intro k t
    rw [unmaskFrom_cons, ih]
    rw [List.length_cons, List.range_succ_eq_map]
    rw [List.foldl_cons, List.foldl_map]
    have h0 : (f :: fs').getD 0 [] = f := rfl
    rw [h0]
    have : k + 0 = k := by omega
    rw [this]
    refine List.foldl_ext _ _ _ ?_
    intro acc i hi
    have h1 : k + (i + 1) = (k + 1) + i := by omega
    simp [Nat.succ_eq_add_one, h1]

/-- C8: `mask_fragments` scans left to right without overlap: the input
splits into unmatched segments interleaved with the recorded fragments,
the masked text is the same interleaving with the i-th fragment replaced
by the token `__MASK<i>__` in discovery order, each recorded fragment is a
placeholder match, and `unmask_fragments` is the fold that substitutes
fragment `i` for token `i` in index order. -/
theorem mask_fragments_decomposition (s : List Char) :
    (∃ segs : List (List Char),
      segs.length = (mask_fragments s).2.length + 1 ∧
      s = interleaveF segs (mask_fragments s).2 ∧
      (mask_fragments s).1 =
        interleaveF segs ((List.range (mask_fragments s).2.length).map maskTok) ∧
      ∀ i : Nat, i < (mask_fragments s).2.length →
        ∃ rest, matchPlaceholder ((mask_fragments s).2.getD i [] ++ rest) =
          some ((mask_fragments s).2.getD i [], rest)) ∧
    ∀ t : List Char, ∀ fs : List (List Char),
      unmask_fragments t fs =
      (List.range fs.length).foldl (fun acc i => replaceAll acc (maskTok i) (fs.getD i [])) t := by
  constructor
  · obtain ⟨segs, h1, h2, h3, h4⟩ := maskAux_decomposition s.length s (Nat.le_refl _) 0
    refine ⟨segs, h1, h2, ?_, h4⟩
    have hfun : (fun i => maskTok (0 + i)) = maskTok := by
      funext i
      simp [Nat.zero_add]
    rw [← hfun]
    exact h3
  · intro t fs
    have h0 := unmaskFrom_eq_fold fs 0 t
    rw [show unmask_fragments t fs = unmaskFrom 0 t fs from rfl, h0]
    refine List.foldl_ext _ _ _ ?_
    intro acc i hi
    simp

/-! ### C6: placeholder preservation through the pipeline -/

theorem replaceAll_no_head_char {p : List Char} {h0 : Char} (hp : p.head? = some h0)
    (a : List Char) (ha : ∀ c ∈ a, c ≠ h0) (r : List Char) : replaceAll a p r = a := by
  have h := replaceAll_skip_chars hp a ha [] r
  simpa [replaceAll_nil] using h

/-- Walking the scan across a whole token of a different index, when the
following material contains no underscore at all. -/
theorem replaceAll_skip_whole_token {k j : Nat} (hjk : j ≠ k) (v : List Char) {m : List Char}
    (hm : '_' ∉ m) :
    replaceAll (maskTok k ++ m) (maskTok j) v = maskTok k ++ replaceAll m (maskTok j) v := by
  have hshape : maskTok k ++ m =
      '_' :: '_' :: 'M' :: 'A' :: 'S' :: 'K' :: (natDigits k ++ ('_' :: '_' :: m)) := by
    simp [maskTok]
  rw [hshape, replaceAll_skip_token hjk v
    (fun t heq => hm (by rw [heq]; simp))
    (fun t heq => hm (by rw [heq]; simp))]
  simp [maskTok]

theorem replaceAll_append_single (q : Char) (r : List Char) : ∀ x y : List Char,
    replaceAll (x ++ y) [q] r = replaceAll x [q] r ++ replaceAll y [q] r := by
  intro x
  induction x with
  | nil => intro y; simp [replaceAll_nil]
  | cons c x' ih =>
    intro y
    by_cases hc : c = q
    · subst hc
      rw [show (c :: x') ++ y = [c] ++ (x' ++ y) from rfl,
        replaceAll_at_head (by simp) (x' ++ y) r,
        show (c :: x') = [c] ++ x' from rfl,
        replaceAll_at_head (by simp) x' r, ih y]
      simp
    · have hnp : ∀ z : List Char, ¬ ([q] : List Char).isPrefixOf (c :: z) = true := by
        intro z hpre
        obtain ⟨w, hw⟩ := (isPrefixOf_eq_true_iff _ _).1 hpre
        injection hw with h1 _
        exact hc h1
      rw [show (c :: x') ++ y = c :: (x' ++ y) from rfl,
        replaceAll_cons_neg c (x' ++ y) r (hnp _),
        replaceAll_cons_neg c x' r (hnp _), ih y]
      rfl

/-- C6 counterexample: if the backend returns a string in which the mask
tokens do not appear, the placeholders are gone from the output: with a
backend returning `x` for the source-script variant of
`Hello %1, you have {count} items`, the output literal contains neither
`%1` nor `{count}`. -/
theorem placeholder_lost_when_backend_drops_tokens :
    translate_value_literal ("\"Привіт %1, у вас {count} елементів\"".data)
      (fun _ => Except.ok ("x".data)) = Except.ok ("\"x\"".data) ∧
    containsSub ("%1".data) ("\"x\"".data) = false ∧
    containsSub ("{count}".data) ("\"x\"".data) = false := by decide

/-- C6 amended: for the source-script variant of the literal
`"Hello %1, you have {count} items"`, whenever the backend returns a
string that still carries the two mask tokens in order, separated by
underscore-free material, the pipeline output contains `%1` and `{count}`
verbatim and in the original relative order. -/
theorem placeholder_preservation (a b c : List Char)
    (translate : List Char → Except Unit (List Char))
    (ha : '_' ∉ a) (hb : '_' ∉ b) (hc : '_' ∉ c)
    (ht : translate ("Привіт __MASK0__, у вас __MASK1__ елементів".data) =
      Except.ok (a ++ "__MASK0__".data ++ b ++ "__MASK1__".data ++ c)) :
    ∃ u v w, translate_value_literal ("\"Привіт %1, у вас {count} елементів\"".data) translate =
      Except.ok (u ++ "%1".data ++ v ++ "{count}".data ++ w) := by
  unfold translate_value_literal
  rw [if_pos (by decide)]
  have hdec : replaceAll (innerOf ("\"Привіт %1, у вас {count} елементів\"".data))
      escQuote ['"'] = "Привіт %1, у вас {count} елементів".data := by decide
  rw [hdec]
  rw [if_pos (by decide)]
  have hmf : mask_fragments ("Привіт %1, у вас {count} елементів".data) =
      ("Привіт __MASK0__, у вас __MASK1__ елементів".data,
        ["%1".data, "{count}".data]) := by decide
  rw [hmf]
  simp only
  rw [ht]
  simp only
  have htok0 : "__MASK0__".data = maskTok 0 := by decide
  have htok1 : "__MASK1__".data = maskTok 1 := by decide
  have hne01 : (1 : Nat) ≠ 0 := by decide
  have ha' : ∀ d ∈ a, d ≠ '_' := fun d hd he => ha (he ▸ hd)
  have hb' : ∀ d ∈ b, d ≠ '_' := fun d hd he => hb (he ▸ hd)
  have hc' : ∀ d ∈ c, d ≠ '_' := fun d hd he => hc (he ▸ hd)
  have hhead : ∀ i : Nat, (maskTok i).head? = some '_' := fun i => rfl
  have hshape1 : a ++ "__MASK0__".data ++ b ++ "__MASK1__".data ++ c =
      a ++ (maskTok 0 ++ (b ++ (maskTok 1 ++ c))) := by
    rw [htok0, htok1]
    simp
  have hstep0 : replaceAll (a ++ "__MASK0__".data ++ b ++ "__MASK1__".data ++ c)
      (maskTok 0) ("%1".data) = a ++ ("%1".data ++ (b ++ (maskTok 1 ++ c))) := by
    rw [hshape1, replaceAll_skip_chars (hhead 0) a ha' _ _,
      replaceAll_at_head (by simp [maskTok]) _ _,
      replaceAll_skip_chars (hhead 0) b hb' _ _,
      replaceAll_skip_whole_token (by decide) _ hc,
      replaceAll_no_head_char (hhead 0) c hc' _]
  have hstep1 : replaceAll (a ++ ("%1".data ++ (b ++ (maskTok 1 ++ c))))
      (maskTok 1) ("{count}".data) =
      a ++ ("%1".data ++ (b ++ ("{count}".data ++ c))) := by
    rw [show a ++ ("%1".data ++ (b ++ (maskTok 1 ++ c))) =
        (a ++ ("%1".data ++ b)) ++ (maskTok 1 ++ c) by simp,
      replaceAll_skip_chars (hhead 1) (a ++ ("%1".data ++ b)) (by
        intro d hd
        simp only [List.mem_append] at hd
        rcases hd with hd | hd | hd
        · exact ha' d hd
        · simp at hd
          rcases hd with rfl | rfl <;> decide
        · exact hb' d hd) _ _,
      replaceAll_at_head (by simp [maskTok]) _ _,
      replaceAll_no_head_char (hhead 1) c hc' _]
    simp
  have hun : unmask_fragments (a ++ "__MASK0__".data ++ b ++ "__MASK1__".data ++ c)
      ["%1".data, "{count}".data] = a ++ ("%1".data ++ (b ++ ("{count}".data ++ c))) := by
    unfold unmask_fragments
    rw [unmaskFrom_cons, hstep0, unmaskFrom_cons, hstep1]
    rfl
  rw [hun]
  unfold LiteralCodec.encode
  rw [replaceAll_append_single '"' escQuote a _,
    replaceAll_append_single '"' escQuote ("%1".data) _,
    replaceAll_append_single '"' escQuote b _,
    replaceAll_append_single '"' escQuote ("{count}".data) _]
  rw [show replaceAll ("%1".data) ['"'] escQuote = "%1".data from by decide,
    show replaceAll ("{count}".data) ['"'] escQuote = "{count}".data from by decide]
  refine ⟨'"' :: replaceAll a ['"'] escQuote, replaceAll b ['"'] escQuote,
    replaceAll c ['"'] escQuote ++ ['"'], ?_⟩
  simp

/-- Witness for C6 amended with a concrete English backend answer that
keeps both tokens. -/
theorem placeholder_preservation_witness :
    ('_' ∉ "Hello ".data ∧ '_' ∉ ", you have ".data ∧ '_' ∉ " items".data) ∧
    (fun _ : List Char =>
        (Except.ok ("Hello __MASK0__, you have __MASK1__ items".data) :
          Except Unit (List Char)))
        ("Привіт __MASK0__, у вас __MASK1__ елементів".data) =
      Except.ok ("Hello ".data ++ "__MASK0__".data ++ ", you have ".data ++
        "__MASK1__".data ++ " items".data) ∧
    ∃ u v w, translate_value_literal ("\"Привіт %1, у вас {count} елементів\"".data)
        (fun _ => Except.ok ("Hello __MASK0__, you have __MASK1__ items".data)) =
      Except.ok (u ++ "%1".data ++ v ++ "{count}".data ++ w) :=
  ⟨⟨by decide, by decide, by decide⟩, by decide,
    placeholder_preservation ("Hello ".data) (", you have ".data) (" items".data)
      (fun _ => Except.ok ("Hello __MASK0__, you have __MASK1__ items".data))
      (by decide) (by decide) (by decide) (by decide)⟩

/-! ### C1: the whole-file substitution is a frame transformation -/

theorem replace_value_id_of_no_translation (pre lit : List Char)
    (translate : List Char → Except Unit (List Char))
    (h : needs_translation (replaceAll (innerOf lit) escQuote ['"']) = false) :
    replace_value pre lit translate = pre ++ lit := by
  unfold replace_value translate_value_literal
  by_cases hq : (startsWithQuote lit && endsWithQuote lit) = true
  · rw [if_pos hq, if_neg (by rw [h]; exact Bool.false_ne_true)]
  · rw [if_neg hq]

theorem replace_value_keeps_front (pre lit : List Char)
    (translate : List Char → Except Unit (List Char)) :
    ∃ out, replace_value pre lit translate = pre ++ out := by
  unfold replace_value
  exact ⟨_, rfl⟩

theorem process_text_decomposition : ∀ n : Nat, ∀ s : List Char, s.length ≤ n →
    ∀ translate : List Char → Except Unit (List Char),
    ∃ (segs : List (List Char)) (ms : List (List Char × List Char)),
      segs.length = ms.length + 1 ∧
      s = interleaveF segs (ms.map (fun pl => pl.1 ++ pl.2)) ∧
      process_text s translate =
        interleaveF segs (ms.map (fun pl => replace_value pl.1 pl.2 translate)) ∧
      ∀ pl ∈ ms, ∃ r, matchKV (pl.1 ++ pl.2 ++ r) = some (pl.1, pl.2, r) := by
  intro n
  induction n with
  | zero =>
    intro s hs translate
    have : s = [] := List.eq_nil_of_length_eq_zero (by omega)
    subst this
    exact ⟨[[]], [], by simp, by simp [interleaveF], by simp [process_text_nil, interleaveF],
      by simp⟩
  | succ n ih =>
    intro s hs translate
    cases s with
    | nil =>
      exact ⟨[[]], [], by simp, by simp [interleaveF], by simp [process_text_nil, interleaveF],
        by simp⟩
    | cons c rest =>
      have hL : (c :: rest).length = rest.length + 1 := by simp
      cases hm : matchKV (c :: rest) with
      | some p =>
        obtain ⟨pre, lit, after⟩ := p
        obtain ⟨hsplit, hpre_ne, hlit_s, hlit_e, hlit_len⟩ := matchKV_sound hm
        have hafter_len : after.length ≤ n := by
          have h1 := matchKV_len hm
          rw [hL] at h1
          omega
        obtain ⟨segs, ms, h1, h2, h3, h4⟩ := ih after hafter_len translate
        refine ⟨[] :: segs, (pre, lit) :: ms, by simp [h1], ?_, ?_, ?_⟩
        · cases segs with
          | nil => simp at h1
          | cons u us =>
            show c :: rest = [] ++ (pre ++ lit) ++
              interleaveF (u :: us) (ms.map (fun pl => pl.1 ++ pl.2))
            rw [← h2, hsplit]
            simp
        · rw [process_text_pos hm]
          cases segs with
          | nil => simp at h1
          | cons u us =>
            show replace_value pre lit translate ++ process_text after translate =
              [] ++ replace_value pre lit translate ++
                interleaveF (u :: us) (ms.map (fun pl => replace_value pl.1 pl.2 translate))
            rw [← h3]
            simp
        · intro pl hpl
          rcases List.mem_cons.1 hpl with rfl | hpl'
          · refine ⟨after, ?_⟩
            show matchKV (pre ++ lit ++ after) = some (pre, lit, after)
            rw [← hsplit]
            exact hm
          · exact h4 pl hpl'
      | none =>
        obtain ⟨segs, ms, h1, h2, h3, h4⟩ := ih rest (by omega) translate
        cases segs with
        | nil => simp at h1
        | cons u us =>
          refine ⟨(c :: u) :: us, ms, by simpa using h1, ?_, ?_, h4⟩
          · rw [interleave_cons_seg, ← h2]
          · rw [process_text_neg hm, interleave_cons_seg, ← h3]

/-- C1: for every input text, the output of the whole-file substitution
is the input with only the matched `key: "value"` literals rewritten: the
input splits into non-matched segments interleaved with matches of
`KV_VALUE_RE` (a captured prefix and a literal); the output is the same
interleaving, each match contributing its captured prefix verbatim
followed by the per-match result; and a matched literal whose decoded
value needs no translation is reproduced byte-for-byte. -/
theorem process_text_frame (s : List Char)
    (translate : List Char → Except Unit (List Char)) :
    ∃ (segs : List (List Char)) (ms : List (List Char × List Char)),
      segs.length = ms.length + 1 ∧
      s = interleaveF segs (ms.map (fun pl => pl.1 ++ pl.2)) ∧
      process_text s translate =
        interleaveF segs (ms.map (fun pl => replace_value pl.1 pl.2 translate)) ∧
      (∀ pl ∈ ms, ∃ r, matchKV (pl.1 ++ pl.2 ++ r) = some (pl.1, pl.2, r)) ∧
      (∀ pl ∈ ms, ∃ out, replace_value pl.1 pl.2 translate = pl.1 ++ out) ∧
      ∀ pl ∈ ms, needs_translation (replaceAll (innerOf pl.2) escQuote ['"']) = false →
        replace_value pl.1 pl.2 translate = pl.1 ++ pl.2 := by
  obtain ⟨segs, ms, h1, h2, h3, h4⟩ :=
    process_text_decomposition s.length s (Nat.le_refl _) translate
  exact ⟨segs, ms, h1, h2, h3, h4,
    fun pl _ => replace_value_keeps_front pl.1 pl.2 translate,
    fun pl _ h => replace_value_id_of_no_translation pl.1 pl.2 translate h⟩

end KerioTrans

